import Mathlib

/-!
Verification of the NEO Explorer core (near-Earth-object database).

This file shallowly embeds the core data model and operations of the
`neo_explorer` package — entity construction (`models.py`), database
construction, linking and lookup (`core/database.py`), and the filter
predicates and size-cap combinator (`utils/filters.py`) — and proves or
refutes the specified properties about them.

Conventions of the embedding:
* Python `str.strip()` / `str.upper()` / `str.lower()` are `pyStrip` /
  `pyUpper` / `pyLower`, defined structurally over the character list.
* Python floats are rationals `ℚ`; a constructor input that may be NaN or a
  non-number is a `PyNumber`.
* Python `dict` (insertion ordered, assignment overwrites in place, new keys
  appended at the end) is an association list with `dictGet` / `dictInsert`.
* Object identity and in-place mutation during the linking pass are made
  explicit with indices: a `CloseApproach.neo` field holds the index of the
  linked object in the database's `neos` list, and a `NearEarthObject`'s
  `approaches` field holds indices into the database's `approaches` list.
* Functions that can raise return `Except String` values.
-/

namespace NeoExplorer

/-- A Python numeric constructor argument: a non-number (fails
`isinstance(x, (int, float))`), a float NaN, or a finite real value. -/
inductive PyNumber where
  | notNum
  | nan
  | fin (q : ℚ)
  deriving DecidableEq

/-- `isinstance(x, (int, float)) and not math.isnan(x)`. -/
def PyNumber.isRealNumber : PyNumber → Bool
  | .fin _ => true
  | _ => false

/-- Python `str.strip()` on a character list: drop whitespace from both
ends. -/
def pyStripL (l : List Char) : List Char :=
  ((l.dropWhile Char.isWhitespace).reverse.dropWhile Char.isWhitespace).reverse

/-- Python `str.strip()`.  (Defined structurally on the character list so
that it evaluates; `String.trim` is extensionally the same but is defined by
well-founded recursion on byte positions.) -/
def pyStrip (s : String) : String := ⟨pyStripL s.data⟩

/-- Python `str.upper()`. -/
def pyUpper (s : String) : String := ⟨s.data.map Char.toUpper⟩

/-- Python `str.lower()`. -/
def pyLower (s : String) : String := ⟨s.data.map Char.toLower⟩

/-- `NearEarthObject` (models.py): designation, optional IAU name, optional
diameter in km (NaN already normalized away), hazardous flag, and the list of
linked close approaches, stored as indices into the database's approaches
list. -/
structure NearEarthObject where
  designation : String
  name : Option String
  diameter : Option ℚ
  hazardous : Bool
  approaches : List Nat
  deriving DecidableEq

/-- `CloseApproach` (models.py): designation, approach time (an abstract
timestamp), distance in au, velocity in km/s, and the optional index of the
linked object in the database's neos list. -/
structure CloseApproach where
  designation : String
  time : Int
  distance : ℚ
  velocity : ℚ
  neo : Option Nat
  deriving DecidableEq

/-- `NearEarthObject.__post_init__` (models.py lines 43-59): reject an
empty/whitespace designation, normalize it with `strip().upper()`, trim a
truthy name (emptied names become `None`), reject a negative diameter, and
normalize a NaN diameter to `None`.  A non-numeric diameter would hit the
`< 0` comparison and raise; the name and approaches fields start as given /
empty exactly as in the dataclass defaults. -/
def mkNearEarthObject (designation : String) (name : Option String)
    (diameter : Option PyNumber) (hazardous : Bool) :
    Except String NearEarthObject :=
  if pyStrip designation = "" then .error "NEO designation cannot be empty"
  else
    let name2 : Option String :=
      match name with
      | some nm =>
          if nm = "" then some ""
          else if pyStrip nm = "" then none else some (pyStrip nm)
      | none => none
    match diameter with
    | some .notNum => .error "TypeError: comparison of non-number"
    | some .nan => .ok ⟨pyUpper (pyStrip designation), name2, none, hazardous, []⟩
    | some (.fin q) =>
        if q < 0 then .error "NEO diameter cannot be negative"
        else .ok ⟨pyUpper (pyStrip designation), name2, some q, hazardous, []⟩
    | none => .ok ⟨pyUpper (pyStrip designation), name2, none, hazardous, []⟩

/-- `CloseApproach.__post_init__` (models.py lines 126-140): reject an
empty/whitespace designation, normalize it with `strip().upper()`, then
require distance and velocity to be real numbers (`isinstance` of int/float
and not NaN).  The `time` argument is typed as a timestamp here, so the
`isinstance(self.time, datetime)` check cannot fail in the embedding.
There is no sign check on distance or velocity. -/
def mkCloseApproach (designation : String) (time : Int)
    (distance velocity : PyNumber) : Except String CloseApproach :=
  if pyStrip designation = "" then .error "Close approach designation cannot be empty"
  else
    match distance with
    | .fin qd =>
        match velocity with
        | .fin qv => .ok ⟨pyUpper (pyStrip designation), time, qd, qv, none⟩
        | _ => .error "Velocity must be a valid number"
    | _ => .error "Distance must be a valid number"

/-- Python `dict` lookup on an association list: the (unique) binding of the
key, if present. -/
def dictGet {β : Type} : List (String × β) → String → Option β
  | [], _ => none
  | p :: rest, k => if p.1 = k then some p.2 else dictGet rest k

/-- Python `dict` assignment `m[k] = v`: overwrite in place if the key is
present, otherwise append the new binding at the end (insertion order). -/
def dictInsert {β : Type} : List (String × β) → String → β → List (String × β)
  | [], k, v => [(k, v)]
  | p :: rest, k, v =>
      if p.1 = k then (k, v) :: rest else p :: dictInsert rest k v

/-- `NEODatabase._build_indexes` (database.py lines 71-86), the loop over
`self._neos`: insert each object's designation into the designation index
and, when the name is truthy (present and nonempty), the name into the name
index.  Values are the objects, represented by their index `i` in the input
list.  (The date index built by the same loop is bookkeeping no claim
touches and is omitted.) -/
def buildIndexesGo : List NearEarthObject → Nat →
    List (String × Nat) → List (String × Nat) →
    List (String × Nat) × List (String × Nat)
  | [], _, dIdx, nIdx => (dIdx, nIdx)
  | n :: rest, i, dIdx, nIdx =>
      let dIdx2 := dictInsert dIdx n.designation i
      let nIdx2 :=
        match n.name with
        | some nm => if nm = "" then nIdx else dictInsert nIdx nm i
        | none => nIdx
      buildIndexesGo rest (i + 1) dIdx2 nIdx2

/-- `_build_indexes` on the whole input list (starting from empty dicts). -/
def buildIndexes (neos : List NearEarthObject) :
    List (String × Nat) × List (String × Nat) :=
  buildIndexesGo neos 0 [] []

/-- In-place update of one list cell (the effect of mutating the object a
Python list cell points to). -/
def modifyAt {α : Type} : List α → Nat → (α → α) → List α
  | [], _, _ => []
  | x :: xs, 0, f => f x :: xs
  | x :: xs, i + 1, f => x :: modifyAt xs i f

/-- `neo.approaches.append(approach)` for the approach at input position
`j`. -/
def appendApproach (j : Nat) (n : NearEarthObject) : NearEarthObject :=
  { n with approaches := n.approaches ++ [j] }

/-- `NEODatabase._link_data` (database.py lines 87-106), the loop over
`self._approaches` with `j` the position of the current approach: look the
approach's designation up in the designation index; on a hit, set
`approach.neo` to the found object and append the approach to that object's
`approaches` list; on a miss, leave the approach untouched.  (The hazardous
and diameter-range secondary indexes updated by the same loop are
bookkeeping no claim touches and are omitted.)  Returns the final neos list
and the final approaches list. -/
def linkGo (dIdx : List (String × Nat)) :
    List NearEarthObject → Nat → List CloseApproach →
    List NearEarthObject × List CloseApproach
  | neos, _, [] => (neos, [])
  | neos, j, a :: rest =>
      match dictGet dIdx a.designation with
      | some i =>
          let res := linkGo dIdx (modifyAt neos i (appendApproach j)) (j + 1) rest
          (res.1, { a with neo := some i } :: res.2)
      | none =>
          let res := linkGo dIdx neos (j + 1) rest
          (res.1, a :: res.2)

/-- The database state after construction. -/
structure NEODatabase where
  neos : List NearEarthObject
  approaches : List CloseApproach
  desigIndex : List (String × Nat)
  nameIndex : List (String × Nat)
  deriving DecidableEq

/-- `NEODatabase.__init__` (database.py lines 32-66): store the two
collections, run `_build_indexes`, then `_link_data`.  (`_compute_statistics`
only fills the stats counters, which no claim touches.)  Note the
constructor has no failure path: it always returns a database. -/
def buildDatabase (neos : List NearEarthObject)
    (approaches : List CloseApproach) : NEODatabase :=
  let idx := buildIndexes neos
  let linked := linkGo idx.1 neos 0 approaches
  ⟨linked.1, linked.2, idx.1, idx.2⟩

/-- `NEODatabase.query` (database.py lines 175-192) for predicates that
always return a boolean: with no filters (or an empty filter dict) yield
every approach; otherwise yield the approaches on which every filter
function returns true, in input order. -/
def NEODatabase.query (db : NEODatabase)
    (filters : Option (List (CloseApproach → Bool))) : List CloseApproach :=
  match filters with
  | none => db.approaches
  | some fs =>
      if fs.isEmpty then db.approaches
      else db.approaches.filter (fun a => fs.all (fun f => f a))

/-- `CompositeFilter.__call__` (filters.py lines 140-150): conjunction of
all contained filters. -/
def CompositeFilter.call (fs : List (CloseApproach → Bool))
    (a : CloseApproach) : Bool :=
  fs.all (fun f => f a)

/-- `all(filter_func(approach) for ...)` when the filter functions may
raise: evaluate in order with short-circuiting; the first raised exception
propagates. -/
def evalConj : List (CloseApproach → Except String Bool) → CloseApproach →
    Except String Bool
  | [], _ => .ok true
  | f :: rest, a =>
      match f a with
      | .error e => .error e
      | .ok false => .ok false
      | .ok true => evalConj rest a

/-- The filtering loop of `NEODatabase.query` when the filter functions may
raise: an exception raised while evaluating the filters on any approach
propagates out of the (fully consumed) generator. -/
def queryEGo (fs : List (CloseApproach → Except String Bool)) :
    List CloseApproach → Except String (List CloseApproach)
  | [] => .ok []
  | a :: rest =>
      match evalConj fs a with
      | .error e => .error e
      | .ok b =>
          match queryEGo fs rest with
          | .error e => .error e
          | .ok l => .ok (if b then a :: l else l)

/-- `NEODatabase.query` (database.py lines 175-192) with possibly-raising
filter functions — the same source function as `NEODatabase.query`, embedded
with its exception behaviour made explicit.  The body has no try/except, so
a filter exception escapes to the caller. -/
def NEODatabase.queryE (db : NEODatabase)
    (filters : Option (List (CloseApproach → Except String Bool))) :
    Except String (List CloseApproach) :=
  match filters with
  | none => .ok db.approaches
  | some fs =>
      if fs.isEmpty then .ok db.approaches else queryEGo fs db.approaches

/-- `NEODatabase.get_neo_by_designation` (database.py lines 127-140): empty
query means not found; otherwise exact lookup of `upper().strip()` of the
query in the designation index. -/
def NEODatabase.getNeoByDesignation (db : NEODatabase)
    (designation : String) : Option Nat :=
  if designation = "" then none
  else dictGet db.desigIndex (pyStrip (pyUpper designation))

/-- `NEODatabase.get_neo_by_name` (database.py lines 142-165): empty query
means not found; otherwise try an exact lookup of the trimmed query in the
name index, and fall back to the first entry (in dict iteration order =
insertion order) whose stored name matches the query case-insensitively. -/
def NEODatabase.getNeoByName (db : NEODatabase) (name : String) :
    Option Nat :=
  if name = "" then none
  else
    match dictGet db.nameIndex (pyStrip name) with
    | some i => some i
    | none =>
        (db.nameIndex.find? (fun p => pyLower p.1 == pyStrip (pyLower name))).map
          (fun p => p.2)

/-- `limit` (filters.py lines 276-295): `None` or a non-positive cap yields
the whole sequence; a positive cap `n` yields items while the running count
stays below `n`, i.e. the first `n` items. -/
def limit {α : Type} (iterator : List α) (n : Option Int) : List α :=
  match n with
  | none => iterator
  | some m => if m ≤ 0 then iterator else iterator.take m.toNat

/-- The six comparison operators `create_custom_filter` recognizes
(`operator.eq/ne/lt/le/gt/ge`). -/
inductive CmpOp where
  | eq | ne | lt | le | gt | ge
  deriving DecidableEq

/-- A Python comparison operator applied to two real numbers. -/
def cmpRat (op : CmpOp) (x v : ℚ) : Bool :=
  match op with
  | .eq => decide (x = v)
  | .ne => decide (x ≠ v)
  | .lt => decide (x < v)
  | .le => decide (x ≤ v)
  | .gt => decide (v < x)
  | .ge => decide (v ≤ x)

/-- A Python comparison operator applied to `Optional[float]` on the left
and a float on the right: `None == v` is `False`, `None != v` is `True`,
and an ordering comparison against `None` raises `TypeError`. -/
def pyCmpOptRat (op : CmpOp) (x : Option ℚ) (v : ℚ) : Except Unit Bool :=
  match x, op with
  | some q, _ => .ok (cmpRat op q v)
  | none, .eq => .ok false
  | none, .ne => .ok true
  | none, _ => .error ()

/-- A Python comparison operator applied to two booleans: Python `bool` is a
subtype of `int` with `False = 0`, `True = 1`, so every comparison is
defined and none raises. -/
def cmpBool (op : CmpOp) (x v : Bool) : Bool :=
  cmpRat op (if x then 1 else 0) (if v then 1 else 0)

/-- Following the `approach.neo` reference: the linked object, if any. -/
def resolveNeo (db : NEODatabase) (a : CloseApproach) : Option NearEarthObject :=
  match a.neo with
  | some i => db.neos.get? i
  | none => none

/-- `DiameterFilter.get` (filters.py lines 110-117): the linked object's
diameter if the approach is linked and the object has a (non-NaN) diameter,
else `None`. -/
def diameterGet (db : NEODatabase) (a : CloseApproach) : Option ℚ :=
  match resolveNeo db a with
  | some n => n.diameter
  | none => none

/-- `HazardousFilter.get` (filters.py lines 120-125): the linked object's
hazardous flag, or the placeholder `False` when the approach is unlinked —
never an absent value. -/
def hazardousGet (db : NEODatabase) (a : CloseApproach) : Bool :=
  match resolveNeo db a with
  | some n => n.hazardous
  | none => false

/-- The `try ... except: return False` around the comparison in
`AttributeFilter.__call__` (filters.py lines 44-66): a raised exception is
absorbed and becomes "does not match". -/
def exceptToBoolFalse : Except Unit Bool → Bool
  | .ok b => b
  | .error _ => false

/-- `AttributeFilter.__call__` of a `DiameterFilter` with operator `op` and
reference value `v` (filters.py lines 44-66 and 110-117).  The
string-reference date-parsing branch of `__call__` is dead here because the
reference value is a number. -/
def diameterFilterCall (db : NEODatabase) (op : CmpOp) (v : ℚ)
    (a : CloseApproach) : Bool :=
  exceptToBoolFalse (pyCmpOptRat op (diameterGet db a) v)

/-- `AttributeFilter.__call__` of a `HazardousFilter` with operator `op` and
reference value `v` (filters.py lines 44-66 and 120-125).  Boolean
comparisons never raise, so the surrounding try/except is invisible. -/
def hazardousFilterCall (db : NEODatabase) (op : CmpOp) (v : Bool)
    (a : CloseApproach) : Bool :=
  cmpBool op (hazardousGet db a) v

/-- A reference value handed to `FilterFactory.create_custom_filter`. -/
inductive PyVal where
  | vNone
  | vBool (b : Bool)
  | vNum (q : ℚ)
  | vStr (s : String)
  | vDate (d : Int)
  deriving DecidableEq

/-- The five filter classes `create_custom_filter` recognizes. -/
inductive FilterKind where
  | date | distance | velocity | diameter | hazardous
  deriving DecidableEq

/-- The `filter_class(op, value)` result of `create_custom_filter`: a filter
of the chosen class carrying the chosen operator and reference value. -/
structure CustomFilter where
  kind : FilterKind
  op : CmpOp
  value : PyVal
  deriving DecidableEq

/-- The `operators` dict of `create_custom_filter` (filters.py lines
246-253). -/
def operatorTable : List (String × CmpOp) :=
  [("eq", .eq), ("ne", .ne), ("lt", .lt), ("le", .le), ("gt", .gt),
   ("ge", .ge)]

/-- The `filter_classes` dict of `create_custom_filter` (filters.py lines
261-267). -/
def filterClassTable : List (String × FilterKind) :=
  [("date", .date), ("distance", .distance), ("velocity", .velocity),
   ("diameter", .diameter), ("hazardous", .hazardous)]

/-- `FilterFactory.create_custom_filter` (filters.py lines 225-273): raise
`FilterError` for an unknown operator name or an unknown filter type;
otherwise build the filter.  No compatibility check between operator and
filter type is performed. -/
def createCustomFilter (filterType operatorName : String) (value : PyVal) :
    Except String CustomFilter :=
  match dictGet operatorTable operatorName with
  | none => .error ("Unsupported operator: " ++ operatorName)
  | some op =>
      match dictGet filterClassTable filterType with
      | none => .error ("Unsupported filter type: " ++ filterType)
      | some k => .ok ⟨k, op, value⟩

/-- Decidable equality for `Except` results, so that concrete runs of the
fallible operations can be checked by `decide`. -/
instance {ε α : Type} [DecidableEq ε] [DecidableEq α] :
    DecidableEq (Except ε α) := fun x y =>
  match x, y with
  | .ok a, .ok b =>
      if h : a = b then .isTrue (by rw [h])
      else .isFalse (by intro hc; cases hc; exact h rfl)
  | .error a, .error b =>
      if h : a = b then .isTrue (by rw [h])
      else .isFalse (by intro hc; cases hc; exact h rfl)
  | .ok _, .error _ => .isFalse (by intro hc; cases hc)
  | .error _, .ok _ => .isFalse (by intro hc; cases hc)

/-- The index (counting from `i`) of the last object in `l` whose
designation is `k`, if any: the object a Python dict maps `k` to after the
index-building loop, since later assignments overwrite earlier ones. -/
def lastMatchIdx : List NearEarthObject → Nat → String → Option Nat
  | [], _, _ => none
  | n :: rest, i, k =>
      (lastMatchIdx rest (i + 1) k).orElse
        (fun _ => if n.designation = k then some i else none)

/-- The positions (counting from `j`) of the approaches in `l` that the
linking pass attaches to the object at index `i`: those whose designation
the designation index maps to `i`. -/
def matchedIdxs (dIdx : List (String × Nat)) :
    Nat → List CloseApproach → Nat → List Nat
  | _, [], _ => []
  | j, a :: rest, i =>
      if dictGet dIdx a.designation = some i then
        j :: matchedIdxs dIdx (j + 1) rest i
      else matchedIdxs dIdx (j + 1) rest i

/-! ### C9: the `limit` combinator -/

/-- C9: for every sequence and every cap, a positive cap `n` makes `limit`
yield exactly the first `min n (length)` items of the sequence in order
(the prefix `take n.toNat`), while a cap of zero, a negative cap, or an
absent cap yields the entire sequence unchanged. -/
theorem limit_caps_sequence {α : Type} (l : List α) :
    limit l none = l ∧
    (∀ n : Int, n ≤ 0 → limit l (some n) = l) ∧
    (∀ n : Int, 0 < n →
      limit l (some n) = l.take n.toNat ∧
      (limit l (some n)).length = min n.toNat l.length) := by
  refine ⟨rfl, ?_, ?_⟩
  · intro n hn
    simp [limit, hn]
  · intro n hn
    have h2 : ¬n ≤ 0 := not_le.mpr hn
    refine ⟨by simp [limit, h2], ?_⟩
    simp [limit, h2, List.length_take]

/-- Witness for C9: capping a 5-element list at 3 yields the first 3 items;
capping at 0, at -2, or not at all yields all 5. -/
theorem limit_caps_sequence_witness :
    limit [1, 2, 3, 4, 5] (some 3) = [1, 2, 3] ∧
    limit [1, 2, 3, 4, 5] (some 0) = [1, 2, 3, 4, 5] ∧
    limit [1, 2, 3, 4, 5] (some (-2)) = [1, 2, 3, 4, 5] ∧
    limit ([1, 2, 3, 4, 5] : List Nat) none = [1, 2, 3, 4, 5] := by
  have h := limit_caps_sequence ([1, 2, 3, 4, 5] : List Nat)
  refine ⟨?_, h.2.1 0 (by decide), h.2.1 (-2) (by decide), h.1⟩
  have h3 := (h.2.2 3 (by decide)).1
  simpa using h3

/-! ### C4: `CloseApproach` construction and validation -/

/-- Counterexample to C4: a close approach with a negative distance (and,
symmetrically, a negative velocity) is accepted — `__post_init__` checks
only `isinstance` and `isnan`, never the sign, so no `ValidationError` is
raised where the claim requires one. -/
theorem mkCloseApproach_accepts_negative :
    mkCloseApproach "2010 XY" 0 (.fin (-1)) (.fin 1) =
      .ok ⟨"2010 XY", 0, -1, 1, none⟩ ∧
    mkCloseApproach "2010 XY" 0 (.fin 1) (.fin (-3)) =
      .ok ⟨"2010 XY", 0, 1, -3, none⟩ := by decide

/-- C4 (amended): constructing a `CloseApproach` with an empty (after
stripping) designation, a non-real-number distance, or a non-real-number
velocity raises; negative finite distances and velocities are accepted;
construction succeeds exactly when the stripped designation is nonempty and
both distance and velocity are real numbers. -/
theorem mkCloseApproach_ok_iff (d : String) (t : Int)
    (dist vel : PyNumber) :
    (mkCloseApproach d t dist vel).isOk = true ↔
      (pyStrip d ≠ "" ∧ dist.isRealNumber = true ∧
        vel.isRealNumber = true) := by
  unfold mkCloseApproach
  by_cases hd : pyStrip d = ""
  · simp [hd, Except.isOk, Except.toBool]
  · cases dist <;> cases vel <;>
      simp [hd, Except.isOk, Except.toBool, PyNumber.isRealNumber]

/-! ### C7: operator/attribute compatibility in `create_custom_filter` -/

/-- A dict lookup succeeds exactly when the key is among the stored keys. -/
theorem dictGet_isSome_iff {β : Type} (l : List (String × β)) (k : String) :
    (dictGet l k).isSome = true ↔ k ∈ l.map Prod.fst := by
  induction l with
  | nil => simp [dictGet]
  | cons p rest ih =>
      by_cases h : p.1 = k
      · simp [dictGet, h]
      · have h2 : k ≠ p.1 := fun hc => h hc.symm
        simp [dictGet, h, ih, h2]

/-- Counterexample to C7: constructing a filter that applies the strict
less-than operator to the hazardous boolean attribute succeeds — no
configuration error is raised at filter-construction time (and evaluating
it cannot raise either, since Python booleans are ordered). -/
theorem createCustomFilter_hazardous_lt_ok :
    createCustomFilter "hazardous" "lt" (.vBool true) =
      .ok ⟨.hazardous, .lt, .vBool true⟩ := by decide

/-- C7 (amended): `create_custom_filter` checks only that the operator name
is one of the six known names and the filter type one of the five known
types; it never checks the operator against the attribute type, so any of
the six operators (non-equality ones included) may be combined with the
hazardous attribute, and whether construction succeeds is independent of
the reference value. -/
theorem createCustomFilter_ok_iff (ft opn : String) (v : PyVal) :
    ((createCustomFilter ft opn v).isOk = true ↔
      (opn ∈ ["eq", "ne", "lt", "le", "gt", "ge"] ∧
        ft ∈ ["date", "distance", "velocity", "diameter", "hazardous"])) ∧
    ∀ v2 : PyVal,
      (createCustomFilter ft opn v).isOk =
        (createCustomFilter ft opn v2).isOk := by
  have hop : (dictGet operatorTable opn).isSome = true ↔
      opn ∈ ["eq", "ne", "lt", "le", "gt", "ge"] := by
    rw [dictGet_isSome_iff]
    simp [operatorTable]
  have hft : (dictGet filterClassTable ft).isSome = true ↔
      ft ∈ ["date", "distance", "velocity", "diameter", "hazardous"] := by
    rw [dictGet_isSome_iff]
    simp [filterClassTable]
  constructor
  · rw [← hop, ← hft]
    unfold createCustomFilter
    cases dictGet operatorTable opn <;>
      cases dictGet filterClassTable ft <;>
        simp [Except.isOk, Except.toBool]
  · intro v2
    unfold createCustomFilter
    cases dictGet operatorTable opn <;>
      cases dictGet filterClassTable ft <;> rfl

/-! ### C3: duplicate designations at database construction -/

/-- Dict assignment then lookup: the assigned key now maps to the new
value; other keys are untouched. -/
theorem dictGet_dictInsert {β : Type} (m : List (String × β))
    (k2 k : String) (v : β) :
    dictGet (dictInsert m k2 v) k =
      if k2 = k then some v else dictGet m k := by
  induction m with
  | nil => simp [dictGet, dictInsert]
  | cons p rest ih =>
      by_cases h : p.1 = k2
      · by_cases h2 : k2 = k
        · simp [dictInsert, dictGet, h, h2]
        · have h3 : ¬p.1 = k := by rw [h]; exact h2
          simp [dictInsert, dictGet, h, h2, h3]
      · by_cases h3 : p.1 = k
        · have h2 : ¬k2 = k := by rw [← h3]; exact fun hc => h hc.symm
          have h4 : ¬k = k2 := fun hc => h2 hc.symm
          simp [dictInsert, dictGet, h, h2, h3, h4]
        · simp [dictInsert, dictGet, h, h3, ih]

/-- What the designation-index loop computes: the last binding wins, and
bindings already in the accumulator only answer keys no object claims. -/
theorem buildIndexesGo_desig (neos : List NearEarthObject) (i : Nat)
    (d n : List (String × Nat)) (k : String) :
    dictGet (buildIndexesGo neos i d n).1 k =
      (lastMatchIdx neos i k).orElse (fun _ => dictGet d k) := by
  induction neos generalizing i d n with
  | nil => simp [buildIndexesGo, lastMatchIdx, Option.orElse]
  | cons x rest ih =>
      simp only [buildIndexesGo, lastMatchIdx]
      rw [ih]
      cases h : lastMatchIdx rest (i + 1) k with
      | some j => simp [Option.orElse]
      | none =>
          simp only [Option.orElse]
          rw [dictGet_dictInsert]
          by_cases h2 : x.designation = k <;> simp [h2]

/-- No object matches the key iff the last-match search fails. -/
theorem lastMatchIdx_eq_none_iff (l : List NearEarthObject) (i : Nat)
    (k : String) :
    lastMatchIdx l i k = none ↔ ∀ n ∈ l, n.designation ≠ k := by
  induction l generalizing i with
  | nil => simp [lastMatchIdx]
  | cons x rest ih =>
      cases h : lastMatchIdx rest (i + 1) k with
      | some j =>
          simp only [lastMatchIdx, h, Option.orElse]
          constructor
          · intro hc; cases hc
          · intro hall
            exfalso
            have : lastMatchIdx rest (i + 1) k = none :=
              (ih (i + 1)).mpr fun n hn => hall n (List.mem_cons_of_mem _ hn)
            rw [this] at h; cases h
      | none =>
          simp only [lastMatchIdx, h, Option.orElse]
          by_cases h2 : x.designation = k
          · simp only [h2, if_pos rfl]
            constructor
            · intro hc; cases hc
            · intro hall
              exact absurd h2 (hall x (List.mem_cons_self x rest))
          · simp only [if_neg h2]
            constructor
            · intro _ n hn
              rcases List.mem_cons.mp hn with h3 | h3
              · rw [h3]; exact h2
              · exact ((ih (i + 1)).mp h) n h3
            · intro _; trivial

/-- A successful last-match search returns the position (offset by the
start counter) of the last object bearing the key. -/
theorem lastMatchIdx_eq_some (l : List NearEarthObject) (i : Nat)
    (k : String) (j : Nat) (h : lastMatchIdx l i k = some j) :
    ∃ t, ∃ ht : t < l.length, j = i + t ∧
      (l.get ⟨t, ht⟩).designation = k ∧
      ∀ t2, ∀ ht2 : t2 < l.length, t < t2 →
        (l.get ⟨t2, ht2⟩).designation ≠ k := by
  induction l generalizing i j with
  | nil => simp [lastMatchIdx] at h
  | cons x rest ih =>
      cases h0 : lastMatchIdx rest (i + 1) k with
      | some j2 =>
          rw [lastMatchIdx, h0] at h
          simp only [Option.orElse] at h
          injection h with hinj
          subst hinj
          rcases ih (i + 1) _ h0 with ⟨t, ht, hj, hget, hlast⟩
          refine ⟨t + 1, by simpa using Nat.succ_lt_succ ht, by omega, ?_, ?_⟩
          · simpa using hget
          · intro t2 ht2 hgt
            cases t2 with
            | zero => omega
            | succ t3 =>
                have ht3 : t3 < rest.length := by simpa using ht2
                have := hlast t3 ht3 (by omega)
                simpa using this
      | none =>
          rw [lastMatchIdx, h0] at h
          simp only [Option.orElse] at h
          by_cases h2 : x.designation = k
          · rw [if_pos h2] at h
            cases h
            refine ⟨0, by simp, by omega, by simpa using h2, ?_⟩
            intro t2 ht2 hgt
            cases t2 with
            | zero => omega
            | succ t3 =>
                have ht3 : t3 < rest.length := by simpa using ht2
                have hmem : rest.get ⟨t3, ht3⟩ ∈ rest :=
                  List.get_mem rest t3 ht3
                have := ((lastMatchIdx_eq_none_iff rest (i + 1) k).mp h0)
                  _ hmem
                simpa using this
          · rw [if_neg h2] at h
            cases h

/-- Counterexample to C3: two objects with the same designation are
accepted silently — the constructor has no failure path, both objects are
stored, and the designation index (hence `get_neo_by_designation`) answers
with the second object, the first having been overwritten. -/
theorem buildDatabase_accepts_duplicates :
    (buildDatabase
        [⟨"2020 AB", none, none, false, []⟩,
         ⟨"2020 AB", none, none, true, []⟩] []).desigIndex =
      [("2020 AB", 1)] ∧
    (buildDatabase
        [⟨"2020 AB", none, none, false, []⟩,
         ⟨"2020 AB", none, none, true, []⟩] []).neos.length = 2 ∧
    (buildDatabase
        [⟨"2020 AB", none, none, false, []⟩,
         ⟨"2020 AB", none, none, true, []⟩] []).getNeoByDesignation
        " 2020 ab" = some 1 := by decide

/-- C3 (amended): database construction never fails; when the input
contains duplicate designations the designation index silently maps each
designation to the last object in input order bearing it (later objects
overwrite earlier ones). -/
theorem buildDatabase_desigIndex_last_wins (neos : List NearEarthObject)
    (apps : List CloseApproach) (k : String) :
    dictGet (buildDatabase neos apps).desigIndex k = lastMatchIdx neos 0 k ∧
    ((lastMatchIdx neos 0 k).isSome = true ↔
      ∃ n ∈ neos, n.designation = k) ∧
    (∀ j, lastMatchIdx neos 0 k = some j →
      ∃ hj : j < neos.length, (neos.get ⟨j, hj⟩).designation = k ∧
        ∀ j2, ∀ hj2 : j2 < neos.length, j < j2 →
          (neos.get ⟨j2, hj2⟩).designation ≠ k) := by
  refine ⟨?_, ?_, ?_⟩
  · show dictGet (buildIndexes neos).1 k = lastMatchIdx neos 0 k
    rw [buildIndexes, buildIndexesGo_desig]
    cases h : lastMatchIdx neos 0 k <;> simp [Option.orElse, dictGet]
  · rw [Option.isSome_iff_ne_none]
    rw [ne_eq, lastMatchIdx_eq_none_iff]
    push_neg
    simp only [exists_prop]
  · intro j hj
    rcases lastMatchIdx_eq_some neos 0 k j hj with ⟨t, ht, hjt, hget, hlast⟩
    have hjt2 : j = t := by omega
    subst hjt2
    exact ⟨ht, hget, fun j2 hj2 hgt => hlast j2 hj2 hgt⟩

/-! ### C5: filters on absent object-derived attributes -/

/-- Counterexample to C5: an approach with no linked object is NOT excluded
from every hazardous-based filter.  `HazardousFilter.get` substitutes the
placeholder `False` for the missing object, so with reference value `False`
the equality filter matches the unlinked approach and the query returns
it. -/
theorem hazardousFilter_includes_unlinked :
    hazardousFilterCall (buildDatabase [] [⟨"2099 ZZ", 0, 1, 1, none⟩])
        .eq false ⟨"2099 ZZ", 0, 1, 1, none⟩ = true ∧
    (buildDatabase [] [⟨"2099 ZZ", 0, 1, 1, none⟩]).query
        (some [hazardousFilterCall
          (buildDatabase [] [⟨"2099 ZZ", 0, 1, 1, none⟩]) .eq false]) =
      [⟨"2099 ZZ", 0, 1, 1, none⟩] := by decide

/-- C5 (amended): evaluating a diameter filter on an approach whose
diameter attribute is absent (no linked object, or no diameter) never
throws and does not match for the operators eq, lt, le, gt, ge — but the
not-equal operator matches (`None != v` is true).  A hazardous filter never
sees an absent attribute: an unlinked approach is treated as having
`hazardous = False`, so it matches exactly those hazardous filters whose
comparison accepts `False` (in particular it matches equality against
`False` and is excluded by equality against `True`). -/
theorem absent_attribute_filter_eval (db : NEODatabase)
    (a : CloseApproach) (op : CmpOp) (v : ℚ) (b : Bool) :
    (diameterGet db a = none →
      diameterFilterCall db op v a = decide (op = CmpOp.ne)) ∧
    (a.neo = none →
      diameterGet db a = none ∧
      hazardousFilterCall db op b a = cmpBool op false b) := by
  constructor
  · intro h
    unfold diameterFilterCall
    rw [h]
    cases op <;> rfl
  · intro h
    have hd : resolveNeo db a = none := by simp [resolveNeo, h]
    refine ⟨by simp [diameterGet, hd], ?_⟩
    simp [hazardousFilterCall, hazardousGet, hd]

/-- Witness for C5 (amended): on a concrete unlinked approach, a `le`
diameter filter does not match, and a hazardous equality filter with
reference `True` does not match. -/
theorem absent_attribute_filter_eval_witness :
    diameterFilterCall (buildDatabase [] []) .le (1 / 2)
        ⟨"X", 0, 1, 1, none⟩ = false ∧
    hazardousFilterCall (buildDatabase [] []) .eq true
        ⟨"X", 0, 1, 1, none⟩ = false := by
  have h1 := (absent_attribute_filter_eval (buildDatabase [] [])
    ⟨"X", 0, 1, 1, none⟩ .le (1 / 2) true).1 (by decide)
  have h2 := ((absent_attribute_filter_eval (buildDatabase [] [])
    ⟨"X", 0, 1, 1, none⟩ .eq (1 / 2) true).2 (by decide)).2
  exact ⟨by simpa using h1, by simpa using h2⟩

/-! ### C1: `query` against the composite filter -/

/-- C1: for every database and every composite filter (a collection of
boolean filter functions), `query` yields a subsequence of the stored
approaches (original input order, nothing invented) containing each
approach occurrence exactly when the composite filter evaluates true on it
— each such occurrence exactly once; with no filter given, `query` is the
identity on the stored approaches. -/
theorem query_filters_approaches (db : NEODatabase)
    (fs : List (CloseApproach → Bool)) :
    (db.query (some fs)).Sublist db.approaches ∧
    (∀ a : CloseApproach, (db.query (some fs)).count a =
      if CompositeFilter.call fs a then db.approaches.count a else 0) ∧
    db.query none = db.approaches := by
  refine ⟨?_, ?_, rfl⟩
  · unfold NEODatabase.query
    by_cases h : fs.isEmpty
    · simp [h]
    · simp only [h, if_neg, Bool.false_eq_true, not_false_eq_true, if_false]
      exact List.filter_sublist _
  · intro a
    unfold NEODatabase.query
    by_cases h : fs.isEmpty
    · have hfs : fs = [] := by
        cases fs with
        | nil => rfl
        | cons x xs => simp [List.isEmpty] at h
      subst hfs
      simp [CompositeFilter.call]
    · simp only [h, Bool.false_eq_true, not_false_eq_true, if_false]
      by_cases hp : CompositeFilter.call fs a
      · rw [if_pos hp]
        exact List.count_filter hp
      · rw [if_neg hp]
        rw [List.count_eq_zero]
        intro hmem
        exact hp (List.of_mem_filter hmem)

/-! ### C6: exceptions raised by predicates during `query` -/

/-- Counterexample to C6: a predicate that raises on the first approach
aborts the whole query — the exception propagates to the caller instead of
skipping that approach and yielding the second one (which the predicate
accepts). -/
theorem queryE_propagates_exception :
    (buildDatabase [] [⟨"X", 0, 1, 1, none⟩, ⟨"Y", 0, 1, 1, none⟩]).queryE
        (some [fun a =>
          if a.designation = "X" then .error "boom" else .ok true]) =
      .error "boom" := by decide

/-- What the filtering loop of `query` does with possibly-raising filters:
it succeeds exactly when the filter evaluation succeeds on every approach,
and on success it returns the approaches whose evaluation returned true. -/
theorem queryEGo_spec (fs : List (CloseApproach → Except String Bool))
    (l : List CloseApproach) :
    ((queryEGo fs l).isOk = true ↔
      ∀ a ∈ l, (evalConj fs a).isOk = true) ∧
    (∀ r, queryEGo fs l = .ok r →
      r = l.filter (fun a =>
        match evalConj fs a with
        | .ok b => b
        | .error _ => false)) := by
  induction l with
  | nil =>
      constructor
      · simp [queryEGo, Except.isOk, Except.toBool]
      · intro r hr
        rw [queryEGo] at hr
        injection hr with hr
        rw [← hr]
        rfl
  | cons a rest ih =>
      cases h : evalConj fs a with
      | error e =>
          constructor
          · constructor
            · intro hok
              rw [queryEGo, h] at hok
              simp [Except.isOk, Except.toBool] at hok
            · intro hall
              have := hall a (List.mem_cons_self a rest)
              rw [h] at this
              simp [Except.isOk, Except.toBool] at this
          · intro r hr
            rw [queryEGo, h] at hr
            cases hr
      | ok b =>
          cases h2 : queryEGo fs rest with
          | error e =>
              constructor
              · constructor
                · intro hok
                  rw [queryEGo, h, h2] at hok
                  simp [Except.isOk, Except.toBool] at hok
                · intro hall
                  have : (queryEGo fs rest).isOk = true :=
                    (ih.1).mpr fun x hx =>
                      hall x (List.mem_cons_of_mem _ hx)
                  rw [h2] at this
                  simp [Except.isOk, Except.toBool] at this
              · intro r hr
                rw [queryEGo, h, h2] at hr
                cases hr
          | ok r2 =>
              constructor
              · constructor
                · intro _ x hx
                  rcases List.mem_cons.mp hx with h3 | h3
                  · rw [h3, h]; rfl
                  · exact (ih.1).mp (by rw [h2]; rfl) x h3
                · intro _
                  rw [queryEGo, h, h2]
                  rfl
              · intro r hr
                rw [queryEGo, h, h2] at hr
                injection hr with hr
                have hrest := ih.2 r2 h2
                rw [← hr, List.filter_cons, h]
                cases b with
                | true => simpa using congrArg (List.cons a) hrest
                | false => simpa using hrest

/-- C6 (amended): an exception raised by a predicate while `query` is
evaluated propagates to the caller and aborts the whole query — the query
result is a value only when the predicates evaluate without raising on
every stored approach, and then it is exactly the approaches accepted by
all predicates; with no filters the query returns all approaches.  (The
absorb-and-skip behaviour the claim describes lives in
`AttributeFilter.__call__`, not in `query`.) -/
theorem queryE_ok_iff (db : NEODatabase)
    (fs : List (CloseApproach → Except String Bool)) :
    ((db.queryE (some fs)).isOk = true ↔
      ∀ a ∈ db.approaches, (evalConj fs a).isOk = true) ∧
    (∀ l, db.queryE (some fs) = .ok l →
      l = db.approaches.filter (fun a =>
        match evalConj fs a with
        | .ok b => b
        | .error _ => false)) ∧
    db.queryE none = .ok db.approaches := by
  refine ⟨?_, ?_, rfl⟩
  · unfold NEODatabase.queryE
    by_cases h : fs.isEmpty
    · have hfs : fs = [] := by
        cases fs with
        | nil => rfl
        | cons x xs => simp [List.isEmpty] at h
      subst hfs
      simp [evalConj, Except.isOk, Except.toBool]
    · simp only [h, Bool.false_eq_true, not_false_eq_true, if_false]
      exact (queryEGo_spec fs db.approaches).1
  · intro l hl
    replace hl : (if fs.isEmpty = true then Except.ok db.approaches
        else queryEGo fs db.approaches) = Except.ok l := hl
    by_cases h : fs.isEmpty
    · have hfs : fs = [] := by
        cases fs with
        | nil => rfl
        | cons x xs => simp [List.isEmpty] at h
      subst hfs
      replace hl : Except.ok db.approaches = Except.ok l := hl
      injection hl with hl
      rw [← hl]
      have : ∀ a : CloseApproach,
          (match evalConj [] a with
            | .ok b => b
            | .error _ => false) = true := fun a => rfl
      simp [List.filter_eq_self.mpr fun a _ => this a]
    · rw [if_neg (by simpa using h)] at hl
      exact (queryEGo_spec fs db.approaches).2 l hl

/-! ### C8: name lookup -/

/-- A dict with duplicate-free keys answers a stored binding exactly. -/
theorem dictGet_eq_some_of_mem {β : Type} (m : List (String × β))
    (k : String) (v : β) (hnd : (m.map Prod.fst).Nodup)
    (hmem : (k, v) ∈ m) : dictGet m k = some v := by
  induction m with
  | nil => cases hmem
  | cons p rest ih =>
      rcases List.mem_cons.mp hmem with h | h
      · rw [← h]
        simp [dictGet]
      · have hnd2 : (p.1 :: rest.map Prod.fst).Nodup := by simpa using hnd
        by_cases h2 : p.1 = k
        · exfalso
          have hk : k ∈ rest.map Prod.fst :=
            List.mem_map.mpr ⟨(k, v), h, rfl⟩
          have h3 := (List.nodup_cons.mp hnd2).1
          rw [h2] at h3
          exact h3 hk
        · rw [dictGet, if_neg h2]
          exact ih (List.nodup_cons.mp hnd2).2 h

/-- A dict lookup fails exactly when no binding has the key. -/
theorem dictGet_eq_none_iff {β : Type} (m : List (String × β))
    (k : String) : dictGet m k = none ↔ ∀ p ∈ m, p.1 ≠ k := by
  induction m with
  | nil => simp [dictGet]
  | cons p rest ih =>
      by_cases h : p.1 = k
      · simp [dictGet, h]
      · simp only [dictGet, if_neg h, ih, List.mem_cons]
        constructor
        · intro hall p2 hp2
          rcases hp2 with h2 | h2
          · rw [h2]; exact h
          · exact hall p2 h2
        · intro hall p2 hp2
          exact hall p2 (Or.inr hp2)

/-- A successful `find?` splits the list at the first hit. -/
theorem find?_eq_some_split {α : Type} (p : α → Bool) (l : List α) (a : α)
    (h : l.find? p = some a) :
    ∃ l1 l2, l = l1 ++ a :: l2 ∧ p a = true ∧ ∀ x ∈ l1, p x = false := by
  induction l with
  | nil => cases h
  | cons x rest ih =>
      cases hp : p x with
      | true =>
          rw [List.find?_cons_of_pos _ hp] at h
          injection h with h
          subst h
          exact ⟨[], rest, rfl, hp, by intro y hy; cases hy⟩
      | false =>
          rw [List.find?_cons_of_neg _ (by simp [hp])] at h
          rcases ih h with ⟨l1, l2, heq, hpa, hl1⟩
          refine ⟨x :: l1, l2, by rw [heq]; rfl, hpa, ?_⟩
          intro y hy
          rcases List.mem_cons.mp hy with h2 | h2
          · rw [h2]; exact hp
          · exact hl1 y h2

/-- C8: name lookup on a database whose name index has duplicate-free keys
(as built construction guarantees).  If the stripped query equals a stored
name, `get_neo_by_name` returns the object that name maps to — the exact
match takes priority.  If no stored name equals the stripped query, the
result is the first entry in name-index iteration order whose stored name
matches the query case-insensitively (`stored.lower() == query.lower().strip()`),
and "not found" exactly when no entry matches case-insensitively. -/
theorem getNeoByName_lookup (db : NEODatabase) (q : String)
    (hnd : (db.nameIndex.map Prod.fst).Nodup) (hq : q ≠ "") :
    (∀ i : Nat, (pyStrip q, i) ∈ db.nameIndex →
      db.getNeoByName q = some i) ∧
    ((∀ p ∈ db.nameIndex, p.1 ≠ pyStrip q) →
      (db.getNeoByName q = none ↔
          ∀ p ∈ db.nameIndex, pyLower p.1 ≠ pyStrip (pyLower q)) ∧
        ∀ i : Nat, db.getNeoByName q = some i →
          ∃ l1 p l2, db.nameIndex = l1 ++ p :: l2 ∧ p.2 = i ∧
            pyLower p.1 = pyStrip (pyLower q) ∧
            ∀ p2 ∈ l1, pyLower p2.1 ≠ pyStrip (pyLower q)) := by
  constructor
  · intro i hmem
    have hdg : dictGet db.nameIndex (pyStrip q) = some i :=
      dictGet_eq_some_of_mem _ _ _ hnd hmem
    unfold NEODatabase.getNeoByName
    rw [if_neg hq, hdg]
  · intro hnoexact
    have hdg : dictGet db.nameIndex (pyStrip q) = none :=
      (dictGet_eq_none_iff _ _).mpr hnoexact
    have hval : db.getNeoByName q =
        (db.nameIndex.find? (fun p =>
          pyLower p.1 == pyStrip (pyLower q))).map (fun p => p.2) := by
      unfold NEODatabase.getNeoByName
      rw [if_neg hq, hdg]
    constructor
    · rw [hval]
      constructor
      · intro hnone p hp
        have hfind : db.nameIndex.find?
            (fun p => pyLower p.1 == pyStrip (pyLower q)) = none := by
          cases hf : db.nameIndex.find?
              (fun p => pyLower p.1 == pyStrip (pyLower q)) with
          | none => rfl
          | some p2 => rw [hf] at hnone; cases hnone
        have := List.find?_eq_none.mp hfind p hp
        simpa using this
      · intro hall
        have hfind : db.nameIndex.find?
            (fun p => pyLower p.1 == pyStrip (pyLower q)) = none :=
          List.find?_eq_none.mpr fun p hp => by
            simpa using hall p hp
        rw [hfind]
        rfl
    · intro i hi
      rw [hval] at hi
      cases hf : db.nameIndex.find?
          (fun p => pyLower p.1 == pyStrip (pyLower q)) with
      | none => rw [hf] at hi; cases hi
      | some p =>
          rw [hf] at hi
          injection hi with hi
          rcases find?_eq_some_split _ _ _ hf with ⟨l1, l2, heq, hpa, hl1⟩
          refine ⟨l1, p, l2, heq, hi, by simpa using hpa, ?_⟩
          intro p2 hp2
          have := hl1 p2 hp2
          simpa using this

/-- Witness for C8: with stored names "Adonis" (object 0) and "ADONIS"
(object 1), looking up the exact string "ADONIS" returns object 1 even
though "Adonis" also matches case-insensitively and comes first. -/
theorem getNeoByName_lookup_witness :
    (pyStrip "ADONIS", 1) ∈
      (buildDatabase
        [⟨"2101", some "Adonis", none, false, []⟩,
         ⟨"2102", some "ADONIS", none, false, []⟩] []).nameIndex ∧
    (buildDatabase
        [⟨"2101", some "Adonis", none, false, []⟩,
         ⟨"2102", some "ADONIS", none, false, []⟩] []).getNeoByName
      "ADONIS" = some 1 := by
  refine ⟨by decide, ?_⟩
  exact (getNeoByName_lookup
    (buildDatabase
      [⟨"2101", some "Adonis", none, false, []⟩,
       ⟨"2102", some "ADONIS", none, false, []⟩] [])
    "ADONIS" (by decide) (by decide)).1 1 (by decide)

/-- Witness for C6 (amended): with one approach and one never-raising,
always-true predicate, the query succeeds and returns exactly the filtered
approaches. -/
theorem queryE_ok_iff_witness :
    ([⟨"X", 0, 1, 1, none⟩] : List CloseApproach) =
      (buildDatabase [] [⟨"X", 0, 1, 1, none⟩]).approaches.filter
        (fun a =>
          match evalConj [fun _ => Except.ok true] a with
          | .ok b => b
          | .error _ => false) := by
  have hl : (buildDatabase [] [⟨"X", 0, 1, 1, none⟩]).queryE
      (some [fun _ => Except.ok true]) = .ok [⟨"X", 0, 1, 1, none⟩] := by
    decide
  exact (queryE_ok_iff (buildDatabase [] [⟨"X", 0, 1, 1, none⟩])
    [fun _ => Except.ok true]).2.1 [⟨"X", 0, 1, 1, none⟩] hl

/-- Witness for C3 (amended): on the concrete duplicated input, the index
agrees with the last-match search, and position 1 is the last (and
winning) bearer of the duplicated designation. -/
theorem buildDatabase_desigIndex_last_wins_witness :
    dictGet (buildDatabase
        [⟨"2020 AB", none, none, false, []⟩,
         ⟨"2020 AB", none, none, true, []⟩] []).desigIndex "2020 AB" =
      lastMatchIdx
        [⟨"2020 AB", none, none, false, []⟩,
         ⟨"2020 AB", none, none, true, []⟩] 0 "2020 AB" ∧
    ∃ hj : 1 < ([⟨"2020 AB", none, none, false, []⟩,
        ⟨"2020 AB", none, none, true, []⟩] :
          List NearEarthObject).length,
      (([⟨"2020 AB", none, none, false, []⟩,
         ⟨"2020 AB", none, none, true, []⟩] :
           List NearEarthObject).get ⟨1, hj⟩).designation = "2020 AB" ∧
      ∀ j2, ∀ hj2 : j2 < ([⟨"2020 AB", none, none, false, []⟩,
          ⟨"2020 AB", none, none, true, []⟩] :
            List NearEarthObject).length, 1 < j2 →
        (([⟨"2020 AB", none, none, false, []⟩,
           ⟨"2020 AB", none, none, true, []⟩] :
             List NearEarthObject).get ⟨j2, hj2⟩).designation ≠ "2020 AB" := by
  have h := buildDatabase_desigIndex_last_wins
    [⟨"2020 AB", none, none, false, []⟩,
     ⟨"2020 AB", none, none, true, []⟩] [] "2020 AB"
  exact ⟨h.1, h.2.2 1 (by decide)⟩

/-! ### C2: the linking pass -/

/-- The database constructor's fields, unfolded. -/
theorem buildDatabase_fields (neos : List NearEarthObject)
    (apps : List CloseApproach) :
    (buildDatabase neos apps).desigIndex = (buildIndexes neos).1 ∧
    (buildDatabase neos apps).nameIndex = (buildIndexes neos).2 ∧
    (buildDatabase neos apps).neos =
      (linkGo (buildIndexes neos).1 neos 0 apps).1 ∧
    (buildDatabase neos apps).approaches =
      (linkGo (buildIndexes neos).1 neos 0 apps).2 :=
  ⟨rfl, rfl, rfl, rfl⟩

/-- Reading a cell after an in-place update of one cell. -/
theorem modifyAt_get? {α : Type} (l : List α) (i : Nat) (f : α → α)
    (t : Nat) :
    (modifyAt l i f).get? t =
      if t = i then (l.get? t).map f else l.get? t := by
  induction l generalizing i t with
  | nil =>
      rw [modifyAt]
      split <;> rfl
  | cons x xs ih =>
      cases i with
      | zero =>
          cases t with
          | zero => rfl
          | succ t2 => rfl
      | succ i2 =>
          cases t with
          | zero =>
              rw [modifyAt]
              rw [if_neg (by omega)]
              rfl
          | succ t2 =>
              rw [modifyAt]
              have hcur : (x :: modifyAt xs i2 f).get? (t2 + 1) =
                  (modifyAt xs i2 f).get? t2 := rfl
              rw [hcur, ih]
              by_cases h : t2 = i2
              · rw [if_pos h, if_pos (by omega)]
                rfl
              · rw [if_neg h, if_neg (by omega)]
                rfl

/-- The approaches list produced by the linking loop: each approach is
independently rewritten to carry the index its designation maps to, if
any. -/
theorem linkGo_snd (dIdx : List (String × Nat)) (l : List CloseApproach)
    (neos : List NearEarthObject) (j : Nat) :
    (linkGo dIdx neos j l).2 = l.map (fun a =>
      match dictGet dIdx a.designation with
      | some i => { a with neo := some i }
      | none => a) := by
  induction l generalizing neos j with
  | nil => rfl
  | cons a rest ih =>
      cases h : dictGet dIdx a.designation with
      | some i => simp [linkGo, h, ih]
      | none => simp [linkGo, h, ih]

/-- Membership in the matched-position list. -/
theorem matchedIdxs_mem (dIdx : List (String × Nat))
    (l : List CloseApproach) (j0 i x : Nat) :
    x ∈ matchedIdxs dIdx j0 l i ↔
      ∃ t, ∃ ht : t < l.length, x = j0 + t ∧
        dictGet dIdx ((l.get ⟨t, ht⟩).designation) = some i := by
  induction l generalizing j0 with
  | nil =>
      simp [matchedIdxs]
  | cons a rest ih =>
      by_cases h : dictGet dIdx a.designation = some i
      · rw [matchedIdxs, if_pos h]
        constructor
        · intro hx
          rcases List.mem_cons.mp hx with h2 | h2
          · exact ⟨0, by simp, by omega, by simpa using h⟩
          · rcases (ih (j0 + 1)).mp h2 with ⟨t, ht, hxt, hd⟩
            exact ⟨t + 1, by simpa using Nat.succ_lt_succ ht,
              by omega, by simpa using hd⟩
        · intro ⟨t, ht, hxt, hd⟩
          cases t with
          | zero =>
              apply List.mem_cons.mpr
              left
              omega
          | succ t2 =>
              apply List.mem_cons.mpr
              right
              apply (ih (j0 + 1)).mpr
              have ht2 : t2 < rest.length := by simpa using ht
              exact ⟨t2, ht2, by omega, by simpa using hd⟩
      · rw [matchedIdxs, if_neg h]
        rw [ih]
        constructor
        · intro ⟨t, ht, hxt, hd⟩
          exact ⟨t + 1, by simpa using Nat.succ_lt_succ ht,
            by omega, by simpa using hd⟩
        · intro ⟨t, ht, hxt, hd⟩
          cases t with
          | zero =>
              exfalso
              apply h
              simpa using hd
          | succ t2 =>
              have ht2 : t2 < rest.length := by simpa using ht
              exact ⟨t2, ht2, by omega, by simpa using hd⟩

/-- Every matched position is at least the starting counter. -/
theorem matchedIdxs_ge (dIdx : List (String × Nat))
    (l : List CloseApproach) (j0 i : Nat) :
    ∀ x ∈ matchedIdxs dIdx j0 l i, j0 ≤ x := by
  intro x hx
  rcases (matchedIdxs_mem dIdx l j0 i x).mp hx with ⟨t, ht, hxt, _⟩
  omega

/-- The matched positions are strictly increasing (input order, no
repeats). -/
theorem matchedIdxs_pairwise (dIdx : List (String × Nat))
    (l : List CloseApproach) (j0 i : Nat) :
    (matchedIdxs dIdx j0 l i).Pairwise (· < ·) := by
  induction l generalizing j0 with
  | nil => simp [matchedIdxs]
  | cons a rest ih =>
      by_cases h : dictGet dIdx a.designation = some i
      · rw [matchedIdxs, if_pos h]
        refine List.pairwise_cons.mpr ⟨?_, ih (j0 + 1)⟩
        intro x hx
        have := matchedIdxs_ge dIdx rest (j0 + 1) i x hx
        omega
      · rw [matchedIdxs, if_neg h]
        exact ih (j0 + 1)

/-- The neos list produced by the linking loop: each object's approaches
collection is extended by exactly the positions of the approaches whose
designation maps to that object's index. -/
theorem linkGo_fst_get? (dIdx : List (String × Nat))
    (l : List CloseApproach) (neos : List NearEarthObject) (j t : Nat) :
    (linkGo dIdx neos j l).1.get? t = (neos.get? t).map (fun n =>
      { n with approaches := n.approaches ++ matchedIdxs dIdx j l t }) := by
  induction l generalizing neos j with
  | nil =>
      have hL : (linkGo dIdx neos j ([] : List CloseApproach)).1 = neos := rfl
      rw [hL]
      simp only [matchedIdxs]
      cases h : neos.get? t with
      | none => rfl
      | some n => simp
  | cons a rest ih =>
      cases hd : dictGet dIdx a.designation with
      | some i =>
          have hstep : (linkGo dIdx neos j (a :: rest)).1 =
              (linkGo dIdx (modifyAt neos i (appendApproach j))
                (j + 1) rest).1 := by
            simp [linkGo, hd]
          rw [hstep, ih, modifyAt_get?]
          by_cases hti : t = i
          · subst hti
            have hcond : dictGet dIdx a.designation = some t := hd
            rw [if_pos rfl, matchedIdxs, if_pos hcond]
            cases h : neos.get? t with
            | none => rfl
            | some n => simp [appendApproach]
          · have hcond : ¬dictGet dIdx a.designation = some t := by
              rw [hd]
              intro hc
              injection hc with hc
              exact hti hc.symm
            rw [if_neg hti, matchedIdxs, if_neg hcond]
      | none =>
          have hstep : (linkGo dIdx neos j (a :: rest)).1 =
              (linkGo dIdx neos (j + 1) rest).1 := by
            simp [linkGo, hd]
          have hcond : ¬dictGet dIdx a.designation = some t := by
            rw [hd]
            intro hc
            cases hc
          rw [hstep, ih, matchedIdxs, if_neg hcond]

/-- C2: after construction from freshly constructed entities (entity
constructors produce empty `approaches` collections and unset `neo`
references), an approach whose designation matches some object's
designation is linked: its `neo` field holds the index the designation
index assigns, the object at that index bears the approach's designation,
its approaches collection contains the approach's position exactly once
and is strictly increasing (input order), and no other object's collection
contains it; an approach with no matching designation keeps `neo` unset
and appears in no object's collection. -/
theorem linking_connects_matching_designations
    (neos : List NearEarthObject) (apps : List CloseApproach)
    (hn : ∀ n ∈ neos, n.approaches = []) (ha : ∀ a ∈ apps, a.neo = none)
    (j : Nat) (hj : j < apps.length) :
    ((∃ n ∈ neos, n.designation = (apps.get ⟨j, hj⟩).designation) →
      ∃ i n2, dictGet (buildDatabase neos apps).desigIndex
          (apps.get ⟨j, hj⟩).designation = some i ∧
        (buildDatabase neos apps).neos.get? i = some n2 ∧
        n2.designation = (apps.get ⟨j, hj⟩).designation ∧
        (buildDatabase neos apps).approaches.get? j =
          some { apps.get ⟨j, hj⟩ with neo := some i } ∧
        n2.approaches.count j = 1 ∧
        n2.approaches.Pairwise (· < ·) ∧
        ∀ i2 n3, i2 ≠ i →
          (buildDatabase neos apps).neos.get? i2 = some n3 →
          j ∉ n3.approaches) ∧
    ((∀ n ∈ neos, n.designation ≠ (apps.get ⟨j, hj⟩).designation) →
      (buildDatabase neos apps).approaches.get? j =
        some (apps.get ⟨j, hj⟩) ∧
      (apps.get ⟨j, hj⟩).neo = none ∧
      ∀ i2 n3, (buildDatabase neos apps).neos.get? i2 = some n3 →
        j ∉ n3.approaches) := by
  have hfields := buildDatabase_fields neos apps
  have hdix : ∀ k, dictGet (buildDatabase neos apps).desigIndex k =
      lastMatchIdx neos 0 k := by
    intro k
    rw [hfields.1, buildIndexes, buildIndexesGo_desig]
    cases h : lastMatchIdx neos 0 k with
    | some v => simp [Option.orElse]
    | none => simp [Option.orElse, dictGet]
  have hget_j : apps.get? j = some (apps.get ⟨j, hj⟩) :=
    List.get?_eq_get hj
  constructor
  · rintro ⟨n, hnmem, hndes⟩
    have hne : lastMatchIdx neos 0 (apps.get ⟨j, hj⟩).designation ≠
        none := by
      rw [ne_eq, lastMatchIdx_eq_none_iff]
      push_neg
      exact ⟨n, hnmem, hndes⟩
    obtain ⟨i, hi⟩ := Option.ne_none_iff_exists'.mp hne
    rcases lastMatchIdx_eq_some neos 0 _ i hi with ⟨t, ht, hit, hgett, _⟩
    have hti : t = i := by omega
    subst hti
    have hdg : dictGet (buildDatabase neos apps).desigIndex
        (apps.get ⟨j, hj⟩).designation = some t := by
      rw [hdix]
      exact hi
    have hdg2 : dictGet (buildIndexes neos).1
        (apps.get ⟨j, hj⟩).designation = some t := by
      rw [← hfields.1]
      exact hdg
    have hfreshT : (neos.get ⟨t, ht⟩).approaches = [] :=
      hn _ (List.get_mem neos t ht)
    have hneo : (buildDatabase neos apps).neos.get? t =
        some { neos.get ⟨t, ht⟩ with approaches := matchedIdxs (buildIndexes neos).1 0 apps t } := by
      rw [hfields.2.2.1, linkGo_fst_get?, List.get?_eq_get ht]
      rw [Option.map_some']
      rw [hfreshT]
      rfl
    have hmemj : j ∈ matchedIdxs (buildIndexes neos).1 0 apps t :=
      (matchedIdxs_mem _ _ _ _ _).mpr ⟨j, hj, by omega, hdg2⟩
    refine ⟨t, _, hdg, hneo, hgett, ?_, ?_, ?_, ?_⟩
    · rw [hfields.2.2.2, linkGo_snd, List.get?_map, hget_j]
      rw [Option.map_some']
      rw [hdg2]
    · have hnd : (matchedIdxs (buildIndexes neos).1 0 apps t).Nodup :=
        List.Pairwise.imp (fun h => Nat.ne_of_lt h)
          (matchedIdxs_pairwise _ _ _ _)
      exact List.count_eq_one_of_mem hnd hmemj
    · exact matchedIdxs_pairwise _ _ _ _
    · intro i2 n3 hne2 hn3
      rw [hfields.2.2.1, linkGo_fst_get?] at hn3
      cases h2 : neos.get? i2 with
      | none => rw [h2] at hn3; cases hn3
      | some orig =>
          rw [h2, Option.map_some'] at hn3
          injection hn3 with hn3
          intro hjmem
          rw [← hn3] at hjmem
          have horig : orig.approaches = [] :=
            hn _ (List.get?_mem h2)
          rw [horig, List.nil_append] at hjmem
          rcases (matchedIdxs_mem _ _ _ _ _).mp hjmem with
            ⟨t2, ht2, hjt2, hd2⟩
          have ht2j : t2 = j := by omega
          subst ht2j
          have hsame : apps.get ⟨t2, ht2⟩ = apps.get ⟨t2, hj⟩ := rfl
          rw [hsame, hdg2] at hd2
          injection hd2 with hd2
          exact hne2 hd2.symm
  · intro hnomatch
    have hnone : lastMatchIdx neos 0 (apps.get ⟨j, hj⟩).designation =
        none :=
      (lastMatchIdx_eq_none_iff _ _ _).mpr hnomatch
    have hdg2 : dictGet (buildIndexes neos).1
        (apps.get ⟨j, hj⟩).designation = none := by
      rw [← hfields.1, hdix]
      exact hnone
    refine ⟨?_, ha _ (List.get_mem apps j hj), ?_⟩
    · rw [hfields.2.2.2, linkGo_snd, List.get?_map, hget_j]
      rw [Option.map_some']
      rw [hdg2]
    · intro i2 n3 hn3 hjmem
      rw [hfields.2.2.1, linkGo_fst_get?] at hn3
      cases h2 : neos.get? i2 with
      | none => rw [h2] at hn3; cases hn3
      | some orig =>
          rw [h2, Option.map_some'] at hn3
          injection hn3 with hn3
          rw [← hn3] at hjmem
          have horig : orig.approaches = [] :=
            hn _ (List.get?_mem h2)
          rw [horig, List.nil_append] at hjmem
          rcases (matchedIdxs_mem _ _ _ _ _).mp hjmem with
            ⟨t2, ht2, hjt2, hd2⟩
          have ht2j : t2 = j := by omega
          subst ht2j
          have hsame : apps.get ⟨t2, ht2⟩ = apps.get ⟨t2, hj⟩ := rfl
          rw [hsame, hdg2] at hd2
          cases hd2

/-- Witness for C2: with one object and one approach sharing designation
"2020 AB", the approach is linked to index 0, which bears the designation,
holds position 0 exactly once, and no other object holds it. -/
theorem linking_connects_matching_designations_witness :
    ∃ i n2,
      dictGet (buildDatabase [⟨"2020 AB", none, none, false, []⟩]
          [⟨"2020 AB", 0, 1, 2, none⟩]).desigIndex "2020 AB" = some i ∧
      (buildDatabase [⟨"2020 AB", none, none, false, []⟩]
          [⟨"2020 AB", 0, 1, 2, none⟩]).neos.get? i = some n2 ∧
      n2.designation = "2020 AB" ∧
      (buildDatabase [⟨"2020 AB", none, none, false, []⟩]
          [⟨"2020 AB", 0, 1, 2, none⟩]).approaches.get? 0 =
        some ⟨"2020 AB", 0, 1, 2, some i⟩ ∧
      n2.approaches.count 0 = 1 ∧
      n2.approaches.Pairwise (· < ·) ∧
      ∀ i2 n3, i2 ≠ i →
        (buildDatabase [⟨"2020 AB", none, none, false, []⟩]
            [⟨"2020 AB", 0, 1, 2, none⟩]).neos.get? i2 = some n3 →
        0 ∉ n3.approaches :=
  (linking_connects_matching_designations
    [⟨"2020 AB", none, none, false, []⟩] [⟨"2020 AB", 0, 1, 2, none⟩]
    (by decide) (by decide) 0 (by decide)).1
    ⟨⟨"2020 AB", none, none, false, []⟩, by decide, by decide⟩

/-! ### C10: designation normalization and linking -/

/-- Inversion of successful object construction: the stored designation is
the stripped, upper-cased input and the approaches collection starts
empty. -/
theorem mkNearEarthObject_inv (s : String) (nm : Option String)
    (d : Option PyNumber) (hz : Bool) (n : NearEarthObject)
    (h : mkNearEarthObject s nm d hz = .ok n) :
    n.designation = pyUpper (pyStrip s) ∧ n.approaches = [] := by
  unfold mkNearEarthObject at h
  by_cases hs : pyStrip s = ""
  · rw [if_pos hs] at h
    cases h
  · rw [if_neg hs] at h
    cases d with
    | none =>
        injection h with h2
        rw [← h2]
        exact ⟨rfl, rfl⟩
    | some pn =>
        cases pn with
        | notNum => cases h
        | nan =>
            injection h with h2
            rw [← h2]
            exact ⟨rfl, rfl⟩
        | fin q =>
            by_cases hq : q < 0
            · simp only [if_pos hq] at h
              cases h
            · simp only [if_neg hq] at h
              injection h with h2
              rw [← h2]
              exact ⟨rfl, rfl⟩

/-- Inversion of successful approach construction: the stored designation
is the stripped, upper-cased input and the `neo` reference starts
unset. -/
theorem mkCloseApproach_inv (s : String) (t : Int) (dv vv : PyNumber)
    (a : CloseApproach) (h : mkCloseApproach s t dv vv = .ok a) :
    a.designation = pyUpper (pyStrip s) ∧ a.neo = none := by
  unfold mkCloseApproach at h
  split at h
  · cases h
  · split at h
    · split at h
      · injection h with h2
        rw [← h2]
        exact ⟨rfl, rfl⟩
      · cases h
    · cases h

/-- C10: both constructors store the designation normalized by
`strip().upper()`, so after database construction the linking pass attaches
an approach to an object whenever their raw designations differ only in
letter case or surrounding whitespace: the approach's `neo` is set to the
object's index and the object's approaches collection is exactly the
approach's position. -/
theorem designation_normalized_and_linked (sN sA : String)
    (nm : Option String) (d : Option PyNumber) (hz : Bool) (t : Int)
    (dv vv : PyNumber) (n : NearEarthObject) (a : CloseApproach)
    (hmkn : mkNearEarthObject sN nm d hz = .ok n)
    (hmka : mkCloseApproach sA t dv vv = .ok a) :
    n.designation = pyUpper (pyStrip sN) ∧
    a.designation = pyUpper (pyStrip sA) ∧
    (pyUpper (pyStrip sN) = pyUpper (pyStrip sA) →
      ∃ n2, (buildDatabase [n] [a]).approaches =
          [{ a with neo := some 0 }] ∧
        (buildDatabase [n] [a]).neos.get? 0 = some n2 ∧
        n2.approaches = [0]) := by
  obtain ⟨hnd, hna⟩ := mkNearEarthObject_inv _ _ _ _ _ hmkn
  obtain ⟨had, _⟩ := mkCloseApproach_inv _ _ _ _ _ hmka
  refine ⟨hnd, had, ?_⟩
  intro heq
  have hdes : n.designation = a.designation := by rw [hnd, had, heq]
  have hidx : (buildIndexes [n]).1 = [(n.designation, 0)] := rfl
  have hlookup : dictGet (buildIndexes [n]).1 a.designation = some 0 := by
    rw [hidx, dictGet, if_pos hdes]
  have happs : (buildDatabase [n] [a]).approaches =
      [{ a with neo := some 0 }] := by
    rw [(buildDatabase_fields [n] [a]).2.2.2, linkGo_snd]
    simp [hlookup]
  have hM : matchedIdxs (buildIndexes [n]).1 0 [a] 0 = [0] := by
    rw [matchedIdxs, if_pos hlookup]
    rfl
  have hneo0 : (buildDatabase [n] [a]).neos.get? 0 =
      some { n with approaches := n.approaches ++ matchedIdxs (buildIndexes [n]).1 0 [a] 0 } := by
    rw [(buildDatabase_fields [n] [a]).2.2.1, linkGo_fst_get?]
    rfl
  refine ⟨_, happs, hneo0, ?_⟩
  rw [hna, hM]
  rfl

/-- Witness for C10: raw designations " 2020 ab " and "2020 AB" — differing
only in case and surrounding whitespace — both normalize to "2020 AB" and
the approach links to the object. -/
theorem designation_normalized_and_linked_witness :
    ∃ n2,
      (buildDatabase [⟨"2020 AB", none, none, false, []⟩]
          [⟨"2020 AB", 5, 1, 2, none⟩]).approaches =
        [⟨"2020 AB", 5, 1, 2, some 0⟩] ∧
      (buildDatabase [⟨"2020 AB", none, none, false, []⟩]
          [⟨"2020 AB", 5, 1, 2, none⟩]).neos.get? 0 = some n2 ∧
      n2.approaches = [0] :=
  (designation_normalized_and_linked " 2020 ab " "2020 AB" none none
    false 5 (.fin 1) (.fin 2) ⟨"2020 AB", none, none, false, []⟩
    ⟨"2020 AB", 5, 1, 2, none⟩ (by decide) (by decide)).2.2 (by decide)

end NeoExplorer
